import Mathlib

/-!
Shallow embedding of the `iter_to_array` Rust library (src/src/lib.rs).

An iterator over elements of `T` is modelled as the list of elements it has
yet to yield; polling (`Iterator::next`) returns the optional head together
with the advanced iterator. A `FnMut() -> T` padding closure is modelled as a
pure stream `pad : Nat → T` of its successive return values together with an
explicit count of how many times it has been invoked; invocation `j` returns
`pad j`. Fixed-size arrays `[T; N]` are modelled as lists of length `N`.
-/

namespace IterToArray

/-- Embeds `ToArrayError` (lib.rs lines 7-10): `tooShort obtained requested`
and `tooLong requested`. -/
inductive ToArrayError where
  | tooShort (obtained : Nat) (requested : Nat)
  | tooLong (requested : Nat)
deriving DecidableEq, Repr

/-- Embeds `MaybePartial<A>` (lib.rs lines 13-17): `full`, `part` (the source
constructor is named `Partial`) carrying the array and the initialized count,
and `empty`. -/
inductive MaybePart (A : Type u) where
  | full (a : A)
  | part (a : A) (count : Nat)
  | empty
deriving DecidableEq, Repr

/-- Polling the modelled iterator: `Iterator::next` returns the head (if any)
and the advanced iterator state. -/
def next {T : Type u} : List T → Option T × List T
  | [] => (none, [])
  | x :: xs => (some x, xs)

/-- Embeds the slot-filling loop shared by `take_array` (lib.rs lines 55-64)
and `take_array_partial` (lines 84-93): poll up to `k` more times, writing
each yielded value into the next slot; on the first failed poll record the
index of the first uninitialized slot (`error_index`) and stop. Returns the
initialized prefix in order, the recorded `error_index` (none when all `k`
slots were filled), and the iterator state after the loop. -/
def fillLoop {T : Type u} : Nat → List T → List T × Option Nat × List T
  | 0, it => ([], none, it)
  | k + 1, it =>
    match next it with
    | (some x, it') =>
      match fillLoop k it' with
      | (filled, err, rest) => (x :: filled, Option.map (fun i => i + 1) err, rest)
    | (none, it') => ([], some 0, it')

/-- Embeds `take_array` (lib.rs lines 50-77): run the filling loop over `N`
slots; on `error_index = Some i` drop the initialized prefix and return
`TooShort(i, N)`, otherwise return the completed array. Also returns the
iterator state left behind for the caller. -/
def take_array {T : Type u} (N : Nat) (it : List T) :
    Except ToArrayError (List T) × List T :=
  match fillLoop N it with
  | (_, some i, rest) => (Except.error (ToArrayError.tooShort i N), rest)
  | (filled, none, rest) => (Except.ok filled, rest)

/-- Embeds `to_array` (lib.rs lines 114-120): run `take_array`, propagate its
error; on success poll once more and return `TooLong(N)` if the source yields
another value, the array otherwise. -/
def to_array {T : Type u} (N : Nat) (it : List T) : Except ToArrayError (List T) :=
  match take_array N it with
  | (Except.error e, _) => Except.error e
  | (Except.ok arr, rest) =>
    match next rest with
    | (some _, _) => Except.error (ToArrayError.tooLong N)
    | (none, _) => Except.ok arr

/-- Embeds `take_array_partial` (lib.rs lines 79-112): run the filling loop;
if `error_index = Some 0` return `Empty`; if `error_index = Some i` with
`i > 0` fill slots `i..N` by invoking the padding closure once per slot in
slot order (invocations `0, 1, ...` of the modelled stream) and return
`Partial(array, i)`; otherwise return `Full`. The third component counts the
padding invocations made. -/
def take_array_part {T : Type u} (N : Nat) (it : List T) (pad : Nat → T) :
    MaybePart (List T) × List T × Nat :=
  match fillLoop N it with
  | (_, some 0, rest) => (MaybePart.empty, rest, 0)
  | (filled, some i, rest) =>
      (MaybePart.part (filled ++ (List.range (N - i)).map pad) i, rest, N - i)
  | (filled, none, rest) => (MaybePart.full filled, rest, 0)

/-- Embeds the filling loop of `take_array_default`/`take_array_pad`
(lib.rs lines 134-136 and 162-164): every one of the `k` slots polls the
iterator and falls back to the fixed value `v` when the poll fails. -/
def takeFillLoop {T : Type u} (v : T) : Nat → List T → List T × List T
  | 0, it => ([], it)
  | k + 1, it =>
    match next it with
    | (some x, it') =>
      match takeFillLoop v k it' with
      | (filled, rest) => (x :: filled, rest)
    | (none, it') =>
      match takeFillLoop v k it' with
      | (filled, rest) => (v :: filled, rest)

/-- Embeds `take_array_default` (lib.rs lines 129-140); `dflt` stands for the
value produced by the element type's `Default::default()`. -/
def take_array_default {T : Type u} (N : Nat) (it : List T) (dflt : T) :
    List T × List T :=
  takeFillLoop dflt N it

/-- Embeds `take_array_pad` (lib.rs lines 157-168); each exhausted slot
receives a clone of the caller-supplied `pad` value. -/
def take_array_pad {T : Type u} (N : Nat) (it : List T) (pad : T) :
    List T × List T :=
  takeFillLoop pad N it

/-- Embeds `to_array_default` (lib.rs lines 142-148). -/
def to_array_default {T : Type u} (N : Nat) (it : List T) (dflt : T) :
    Except ToArrayError (List T) :=
  match take_array_default N it dflt with
  | (arr, rest) =>
    match next rest with
    | (some _, _) => Except.error (ToArrayError.tooLong N)
    | (none, _) => Except.ok arr

/-- Embeds `to_array_pad` (lib.rs lines 170-176). -/
def to_array_pad {T : Type u} (N : Nat) (it : List T) (pad : T) :
    Except ToArrayError (List T) :=
  match take_array_pad N it pad with
  | (arr, rest) =>
    match next rest with
    | (some _, _) => Except.error (ToArrayError.tooLong N)
    | (none, _) => Except.ok arr

/-- Embeds the state of `ChunksIter` (lib.rs lines 179-182): the wrapped
iterator, plus the number of invocations the shared `FnMut` padding closure
has received so far (the closure's mutable state in the stream model). -/
structure ChunksIter (T : Type u) where
  iter : List T
  padCalls : Nat
deriving DecidableEq, Repr

/-- Embeds `ChunksIter::next` (lib.rs lines 188-195): one `take_array_partial`
call on the wrapped iterator; `Empty` ends the sequence, `Partial`/`Full`
yield their array. The padding closure continues from its accumulated
invocation count. -/
def chunksNext {T : Type u} (N : Nat) (pad : Nat → T) (s : ChunksIter T) :
    Option (List T) × ChunksIter T :=
  match take_array_part N s.iter (fun j => pad (s.padCalls + j)) with
  | (MaybePart.empty, rest, c) => (none, ⟨rest, s.padCalls + c⟩)
  | (MaybePart.part x _, rest, c) => (some x, ⟨rest, s.padCalls + c⟩)
  | (MaybePart.full x, rest, c) => (some x, ⟨rest, s.padCalls + c⟩)

/-- The iterator state after `k` calls of `ChunksIter::next`. -/
def chunksState {T : Type u} (N : Nat) (pad : Nat → T) : ChunksIter T → Nat → ChunksIter T
  | s, 0 => s
  | s, k + 1 => chunksState N pad (chunksNext N pad s).2 k

/-- What the `k`-th call (0-based) of `ChunksIter::next` returns. -/
def chunksEmit {T : Type u} (N : Nat) (pad : Nat → T) (s : ChunksIter T) (k : Nat) :
    Option (List T) :=
  (chunksNext N pad (chunksState N pad s k)).1

/-- Collecting the chunk sequence, as the library's tests do with
`Vec::collect`: call `ChunksIter::next` until it returns `None`, bounded by
an explicit fuel (the sequence is lazy; any fuel at least the chunk count
plus one collects it whole). -/
def chunksCollect {T : Type u} (N : Nat) (pad : Nat → T) : Nat → ChunksIter T → List (List T)
  | 0, _ => []
  | f + 1, s =>
    match chunksNext N pad s with
    | (none, _) => []
    | (some x, s') => x :: chunksCollect N pad f s'

/-- Embeds `chunks` (lib.rs lines 199-201): wrap a fresh iterator with a
padding closure that has not yet been invoked. -/
def chunks {T : Type u} (it : List T) : ChunksIter T :=
  ⟨it, 0⟩

/-! Characterization of the filling loop. -/

theorem fillLoop_of_le {T : Type u} (N : Nat) (it : List T) (h : N ≤ it.length) :
    fillLoop N it = (it.take N, none, it.drop N) := by
  induction N generalizing it with
  | zero => simp [fillLoop]
  | succ k ih =>
    cases it with
    | nil => simp at h
    | cons x xs =>
      have hk : k ≤ xs.length := by simpa using h
      simp [fillLoop, next, ih xs hk]

theorem fillLoop_of_lt {T : Type u} (N : Nat) (it : List T) (h : it.length < N) :
    fillLoop N it = (it, some it.length, []) := by
  induction it generalizing N with
  | nil =>
    cases N with
    | zero => simp at h
    | succ k => simp [fillLoop, next]
  | cons x xs ih =>
    cases N with
    | zero => simp at h
    | succ k =>
      have hk : xs.length < k := by simpa using h
      simp [fillLoop, next, ih k hk]

/-! Characterization of `take_array` and `to_array`. -/

theorem take_array_of_le {T : Type u} (N : Nat) (it : List T) (h : N ≤ it.length) :
    take_array N it = (Except.ok (it.take N), it.drop N) := by
  simp [take_array, fillLoop_of_le N it h]

theorem take_array_of_lt {T : Type u} (N : Nat) (it : List T) (h : it.length < N) :
    take_array N it = (Except.error (ToArrayError.tooShort it.length N), []) := by
  simp [take_array, fillLoop_of_lt N it h]

theorem to_array_of_eq {T : Type u} (N : Nat) (it : List T) (h : it.length = N) :
    to_array N it = Except.ok (it.take N) := by
  have h1 := take_array_of_le N it (le_of_eq h.symm)
  have h2 : it.drop N = [] := List.drop_eq_nil_of_le (le_of_eq h)
  simp [to_array, h1, h2, next]

theorem to_array_of_lt {T : Type u} (N : Nat) (it : List T) (h : it.length < N) :
    to_array N it = Except.error (ToArrayError.tooShort it.length N) := by
  simp [to_array, take_array_of_lt N it h]

theorem to_array_of_gt {T : Type u} (N : Nat) (it : List T) (h : N < it.length) :
    to_array N it = Except.error (ToArrayError.tooLong N) := by
  have h1 := take_array_of_le N it (le_of_lt h)
  have h2 : it.drop N ≠ [] := by
    intro hnil
    rw [List.drop_eq_nil_iff] at hnil
    omega
  obtain ⟨y, ys, hys⟩ := List.exists_cons_of_ne_nil h2
  simp [to_array, h1, hys, next]

/-! Characterization of `take_array_partial` (embedded as `take_array_part`). -/

theorem take_array_part_of_le {T : Type u} (N : Nat) (it : List T) (pad : Nat → T)
    (h : N ≤ it.length) :
    take_array_part N it pad = (MaybePart.full (it.take N), it.drop N, 0) := by
  simp [take_array_part, fillLoop_of_le N it h]

theorem take_array_part_nil {T : Type u} (N : Nat) (pad : Nat → T) (hN : 0 < N) :
    take_array_part N ([] : List T) pad = (MaybePart.empty, [], 0) := by
  have h := fillLoop_of_lt N ([] : List T) (by simpa using hN)
  simp [take_array_part, h]

theorem take_array_part_of_lt {T : Type u} (N : Nat) (it : List T) (pad : Nat → T)
    (h0 : it ≠ []) (h : it.length < N) :
    take_array_part N it pad =
      (MaybePart.part (it ++ (List.range (N - it.length)).map pad) it.length,
        [], N - it.length) := by
  obtain ⟨x, xs, rfl⟩ := List.exists_cons_of_ne_nil h0
  simp [take_array_part, fillLoop_of_lt N (x :: xs) h]

/-! Characterization of the default/constant padding loop. -/

theorem takeFillLoop_nil {T : Type u} (v : T) (N : Nat) :
    takeFillLoop v N ([] : List T) = (List.replicate N v, []) := by
  induction N with
  | zero => simp [takeFillLoop]
  | succ k ih => simp [takeFillLoop, next, ih, List.replicate_succ]

theorem takeFillLoop_of_lt {T : Type u} (v : T) (N : Nat) (it : List T)
    (h : it.length < N) :
    takeFillLoop v N it = (it ++ List.replicate (N - it.length) v, []) := by
  induction it generalizing N with
  | nil =>
    cases N with
    | zero => simp at h
    | succ k => simp [takeFillLoop_nil]
  | cons x xs ih =>
    cases N with
    | zero => simp at h
    | succ k =>
      have hk : xs.length < k := by simpa using h
      simp [takeFillLoop, next, ih k hk]

/-! Characterization of one `ChunksIter::next` step. -/

theorem chunksNext_nil {T : Type u} (N : Nat) (pad : Nat → T) (c : Nat) (hN : 0 < N) :
    chunksNext N pad ⟨([] : List T), c⟩ = (none, ⟨[], c⟩) := by
  simp [chunksNext, take_array_part_nil N _ hN]

theorem chunksNext_of_lt {T : Type u} (N : Nat) (pad : Nat → T) (it : List T) (c : Nat)
    (h0 : it ≠ []) (h : it.length < N) :
    chunksNext N pad ⟨it, c⟩ =
      (some (it ++ (List.range (N - it.length)).map (fun j => pad (c + j))),
        ⟨[], c + (N - it.length)⟩) := by
  simp [chunksNext, take_array_part_of_lt N it _ h0 h]

theorem chunksNext_of_le {T : Type u} (N : Nat) (pad : Nat → T) (it : List T) (c : Nat)
    (h : N ≤ it.length) :
    chunksNext N pad ⟨it, c⟩ = (some (it.take N), ⟨it.drop N, c⟩) := by
  simp [chunksNext, take_array_part_of_le N it _ h]

theorem chunksNext_iter_drop {T : Type u} (N : Nat) (pad : Nat → T) (s : ChunksIter T) :
    (chunksNext N pad s).2.iter = s.iter.drop N := by
  obtain ⟨it, c⟩ := s
  rcases Nat.lt_or_ge it.length N with h | h
  · cases hnil : it with
    | nil =>
      rcases Nat.eq_zero_or_pos N with rfl | hN
      · exact absurd h (Nat.not_lt_zero _)
      · simp [chunksNext_nil N pad c hN]
    | cons x xs =>
      rw [hnil] at h
      rw [chunksNext_of_lt N pad (x :: xs) c (by simp) h]
      simp [List.drop_eq_nil_of_le (le_of_lt h)]
  · simp [chunksNext_of_le N pad it c h]

theorem chunksState_iter_drop {T : Type u} (N : Nat) (pad : Nat → T) (s : ChunksIter T)
    (k : Nat) : (chunksState N pad s k).iter = s.iter.drop (k * N) := by
  induction k generalizing s with
  | zero => simp [chunksState]
  | succ k ih =>
    rw [chunksState, ih, chunksNext_iter_drop, List.drop_drop, Nat.succ_mul,
      Nat.add_comm (k * N) N]

theorem chunksNext_none_of_nil {T : Type u} (N : Nat) (pad : Nat → T) (s : ChunksIter T)
    (hN : 0 < N) (h : s.iter = []) : (chunksNext N pad s).1 = none := by
  obtain ⟨it, c⟩ := s
  simp only at h
  subst h
  rw [chunksNext_nil N pad c hN]

/-! Characterization of the collected chunk sequence. -/

theorem chunksCollect_length {T : Type u} (N : Nat) (pad : Nat → T) (hN : 0 < N) :
    ∀ (f : Nat) (it : List T) (c : Nat), it.length < f →
      (chunksCollect N pad f ⟨it, c⟩).length = (it.length + N - 1) / N := by
  intro f
  induction f with
  | zero => intro it c h; exact absurd h (Nat.not_lt_zero _)
  | succ f ih =>
    intro it c h
    rcases Nat.lt_or_ge it.length N with hlt | hge
    · cases hnil : it with
      | nil =>
        simp only [chunksCollect, chunksNext_nil N pad c hN]
        simp [Nat.div_eq_of_lt (show N - 1 < N by omega)]
      | cons x xs =>
        rw [hnil] at hlt h
        have hlt' : xs.length + 1 < N := by simpa using hlt
        have h' : xs.length + 1 < f + 1 := by simpa using h
        have hf : 0 < f := by omega
        obtain ⟨g, rfl⟩ := Nat.exists_eq_succ_of_ne_zero (Nat.pos_iff_ne_zero.mp hf)
        simp only [chunksCollect, chunksNext_of_lt N pad (x :: xs) c (by simp) hlt,
          chunksNext_nil N pad _ hN]
        simp [Nat.add_div_right _ hN, Nat.div_eq_of_lt (show xs.length < N by omega)]
    · simp only [chunksCollect, chunksNext_of_le N pad it c hge]
      have hlen : (it.drop N).length = it.length - N := by simp
      have hrec : (it.drop N).length < f := by omega
      rw [List.length_cons, ih (it.drop N) c hrec, hlen]
      have h1 : it.length - N + N - 1 + N = it.length + N - 1 := by omega
      rw [show it.length + N - 1 = it.length - N + N - 1 + N from h1.symm,
        Nat.add_div_right _ hN]

theorem chunksCollect_get_full {T : Type u} (N : Nat) (pad : Nat → T) (hN : 0 < N) :
    ∀ (f : Nat) (it : List T) (c j : Nat), it.length < f → j * N + N ≤ it.length →
      (chunksCollect N pad f ⟨it, c⟩)[j]? = some ((it.drop (j * N)).take N) := by
  intro f
  induction f with
  | zero => intro it c j h hj; exact absurd h (Nat.not_lt_zero _)
  | succ f ih =>
    intro it c j h hj
    have hge : N ≤ it.length := by omega
    simp only [chunksCollect, chunksNext_of_le N pad it c hge]
    cases j with
    | zero => simp
    | succ j =>
      rw [List.getElem?_cons_succ]
      have hmul : (j + 1) * N = j * N + N := Nat.succ_mul j N
      have hlen : (it.drop N).length = it.length - N := by simp
      have hrec : (it.drop N).length < f := by omega
      have hj' : j * N + N ≤ (it.drop N).length := by omega
      rw [ih (it.drop N) c j hrec hj', List.drop_drop]
      rw [show N + j * N = (j + 1) * N by rw [hmul, Nat.add_comm]]

theorem chunksCollect_ragged {T : Type u} (N : Nat) (pad : Nat → T) (hN : 0 < N) :
    ∀ (f : Nat) (it : List T) (c : Nat), it.length < f → it.length % N ≠ 0 →
      (chunksCollect N pad f ⟨it, c⟩)[(it.length + N - 1) / N - 1]? =
        some (it.drop (it.length - it.length % N)
          ++ (List.range (N - it.length % N)).map (fun j => pad (c + j))) := by
  intro f
  induction f with
  | zero => intro it c h hmod; exact absurd h (Nat.not_lt_zero _)
  | succ f ih =>
    intro it c h hmod
    rcases Nat.lt_or_ge it.length N with hlt | hge
    · cases hnil : it with
      | nil => rw [hnil] at hmod; simp at hmod
      | cons x xs =>
        rw [hnil] at hlt h hmod
        simp only [chunksCollect, chunksNext_of_lt N pad (x :: xs) c (by simp) hlt]
        have hlt' : xs.length + 1 < N := by simpa using hlt
        have hdiv : ((x :: xs).length + N - 1) / N = 1 := by
          simp only [List.length_cons]
          apply Nat.div_eq_of_lt_le
          · omega
          · omega
        have hm : (x :: xs).length % N = (x :: xs).length := Nat.mod_eq_of_lt hlt
        rw [hdiv, hm]
        simp
    · simp only [chunksCollect, chunksNext_of_le N pad it c hge]
      have hlen : (it.drop N).length = it.length - N := by simp
      have hmodeq : (it.length - N) % N = it.length % N := by
        conv_rhs => rw [show it.length = it.length - N + N from (Nat.sub_add_cancel hge).symm]
        rw [Nat.add_mod_right]
      have hmod2 : (it.drop N).length % N ≠ 0 := by rw [hlen, hmodeq]; exact hmod
      have hrec : (it.drop N).length < f := by omega
      have hih := ih (it.drop N) c hrec hmod2
      have hmlt : it.length % N < N := Nat.mod_lt _ hN
      have hgt : N < it.length := by
        rcases Nat.lt_or_ge N it.length with hg | hg
        · exact hg
        · exfalso
          have he : it.length = N := le_antisymm hg hge
          rw [he, Nat.mod_self] at hmod
          exact hmod rfl
      have hq1 : 1 ≤ ((it.drop N).length + N - 1) / N := by
        rw [Nat.le_div_iff_mul_le hN, Nat.one_mul]
        omega
      have hdiv2 : (it.length + N - 1) / N = ((it.drop N).length + N - 1) / N + 1 := by
        rw [hlen, show it.length + N - 1 = (it.length - N + N - 1) + N by omega,
          Nat.add_div_right _ hN]
      rw [hdiv2]
      rw [show ((it.drop N).length + N - 1) / N + 1 - 1
            = (((it.drop N).length + N - 1) / N - 1) + 1 by omega]
      rw [List.getElem?_cons_succ, hih]
      have hmle : it.length % N ≤ it.length - N := by
        have h2 := Nat.mod_le (it.length - N) N
        omega
      rw [hlen, hmodeq, List.drop_drop]
      rw [show N + (it.length - N - it.length % N) = it.length - it.length % N by omega]

theorem chunksState_zero_nil {T : Type u} (pad : Nat → T) (c : Nat) (k : Nat) :
    chunksState 0 pad (⟨[], c⟩ : ChunksIter T) k = ⟨[], c⟩ := by
  induction k with
  | zero => rfl
  | succ k ih =>
    have h2 : (chunksNext 0 pad (⟨[], c⟩ : ChunksIter T)).2 = ⟨[], c⟩ := rfl
    rw [chunksState, h2, ih]

/-! The claims. -/

/-- Claim C1: for every N and every source holding at least N elements,
`take_array` succeeds with the array of the first N source elements in source
order (an array of size N), and when the source holds exactly N elements
`to_array` succeeds with that same array. -/
theorem take_array_first_n {T : Type u} (N : Nat) (it : List T) (h : N ≤ it.length) :
    take_array N it = (Except.ok (it.take N), it.drop N)
    ∧ (it.take N).length = N
    ∧ (it.length = N → to_array N it = Except.ok (it.take N)) :=
  ⟨take_array_of_le N it h,
    by rw [List.length_take]; exact Nat.min_eq_left h,
    fun he => to_array_of_eq N it he⟩

theorem take_array_first_n_witness :
    to_array 2 [(1 : Nat), 2] = Except.ok [1, 2] :=
  (take_array_first_n 2 [(1 : Nat), 2] (by decide)).2.2 rfl

/-- Claim C2, amended: the empty-source case additionally requires N > 0 (for
N = 0 the code returns `Full` of the zero-length array even on an empty
source, see the counterexample; the other two cases are as claimed). For
every N > 0, padding stream and source: an empty source gives `Empty` with
zero padding invocations; a source of length M with 0 < M < N gives
`Partial(array, M)` whose first M slots are the source elements in order and
whose slots M..N are the results of exactly N-M padding invocations in slot
order; a source with at least N elements gives `Full` of the first N elements
with zero padding invocations. -/
theorem take_array_part_cases {T : Type u} (N : Nat) (pad : Nat → T) (it : List T)
    (hN : 0 < N) :
    (it = [] → take_array_part N it pad = (MaybePart.empty, [], 0))
    ∧ (0 < it.length → it.length < N →
        take_array_part N it pad =
          (MaybePart.part (it ++ (List.range (N - it.length)).map pad) it.length,
            [], N - it.length))
    ∧ (N ≤ it.length →
        take_array_part N it pad = (MaybePart.full (it.take N), it.drop N, 0)) := by
  refine ⟨?_, ?_, ?_⟩
  · rintro rfl
    exact take_array_part_nil N pad hN
  · intro h0 hlt
    exact take_array_part_of_lt N it pad (List.ne_nil_of_length_pos h0) hlt
  · intro hge
    exact take_array_part_of_le N it pad hge

theorem take_array_part_cases_witness :
    take_array_part 3 [(5 : Nat)] (fun j => j + 10) = (MaybePart.part [5, 10, 11] 1, [], 2) :=
  (take_array_part_cases 3 (fun j => j + 10) [(5 : Nat)] (by decide)).2.1 (by decide) (by decide)

/-- Claim C2 counterexample: with N = 0 and an empty source,
`take_array_partial` returns `Full` of the zero-length array, not `Empty` as
the claim states for every empty source. -/
theorem take_array_part_empty_source_cex :
    (take_array_part 0 ([] : List Nat) (fun j => j)).1 = MaybePart.full []
    ∧ MaybePart.full ([] : List Nat) ≠ MaybePart.empty :=
  ⟨rfl, by decide⟩

/-- Claim C3, amended: the chunk size must be positive (for N = 0 the iterator
yields an empty chunk at every poll, even on an empty source, see the
counterexample). For every N > 0, padding stream and source of length L,
collecting the chunk sequence (fuel L+1 collects it whole) yields exactly
(L + N - 1) / N chunks — ceil(L/N) for L > 0 and 0 for L = 0; every chunk
whose index j satisfies j*N + N ≤ L consists purely of source elements (this
covers every chunk except a ragged last one); and when L mod N ≠ 0 the last
chunk holds the final L mod N source elements in order followed by the
successive padding values, in invocation order. -/
theorem chunks_yield_spec {T : Type u} (N : Nat) (pad : Nat → T) (it : List T)
    (hN : 0 < N) :
    (chunksCollect N pad (it.length + 1) (chunks it)).length = (it.length + N - 1) / N
    ∧ (∀ j, j * N + N ≤ it.length →
        (chunksCollect N pad (it.length + 1) (chunks it))[j]? =
          some ((it.drop (j * N)).take N))
    ∧ (it.length % N ≠ 0 →
        (chunksCollect N pad (it.length + 1) (chunks it))[(it.length + N - 1) / N - 1]? =
          some (it.drop (it.length - it.length % N)
            ++ (List.range (N - it.length % N)).map pad)) := by
  have hf : it.length < it.length + 1 := Nat.lt_succ_self _
  refine ⟨chunksCollect_length N pad hN _ it 0 hf,
    fun j hj => chunksCollect_get_full N pad hN _ it 0 j hf hj, fun hm => ?_⟩
  have h := chunksCollect_ragged N pad hN (it.length + 1) it 0 hf hm
  simpa using h

theorem chunks_yield_spec_witness :
    (chunksCollect 2 (fun _ => (9 : Nat)) 6 (chunks [0, 1, 2, 3, 4]))[2]? = some [4, 9] :=
  (chunks_yield_spec 2 (fun _ => (9 : Nat)) [0, 1, 2, 3, 4] (by decide)).2.2 (by decide)

/-- Claim C3 counterexample: with chunk size 0 and the empty source (L = 0)
the iterator still yields a chunk — the first poll returns `some []` and the
collected list is nonempty — whereas the claim demands zero chunks when
L = 0. -/
theorem chunks_empty_source_cex :
    chunksEmit 0 (fun j => j) (chunks ([] : List Nat)) 0 = some []
    ∧ chunksCollect 0 (fun j => j) 1 (chunks ([] : List Nat)) = [[]] :=
  ⟨rfl, rfl⟩

/-- Claim C4: for every N and every source with M < N elements, `take_array`
and `to_array` both fail with `TooShort(M, N)`, carrying exactly the count of
elements obtained before exhaustion. -/
theorem too_short_on_short_source {T : Type u} (N : Nat) (it : List T)
    (h : it.length < N) :
    take_array N it = (Except.error (ToArrayError.tooShort it.length N), [])
    ∧ to_array N it = Except.error (ToArrayError.tooShort it.length N) :=
  ⟨take_array_of_lt N it h, to_array_of_lt N it h⟩

theorem too_short_on_short_source_witness :
    to_array 3 [(7 : Nat)] = Except.error (ToArrayError.tooShort 1 3) :=
  (too_short_on_short_source 3 [(7 : Nat)] (by decide)).2

/-- Claim C5: for every N and every source with more than N elements,
`take_array` succeeds with the first N elements, while `to_array` returns
exactly the error `TooLong(N)` — so the already-built N-element array is
discarded, not returned. -/
theorem too_long_on_long_source {T : Type u} (N : Nat) (it : List T)
    (h : N < it.length) :
    (take_array N it).1 = Except.ok (it.take N)
    ∧ to_array N it = Except.error (ToArrayError.tooLong N) := by
  constructor
  · rw [take_array_of_le N it (le_of_lt h)]
  · exact to_array_of_gt N it h

theorem too_long_on_long_source_witness :
    to_array 1 [(1 : Nat), 2] = Except.error (ToArrayError.tooLong 1) :=
  (too_long_on_long_source 1 [(1 : Nat), 2] (by decide)).2

/-- Claim C6: for every N and every source with M < N elements,
`take_array_default` and `take_array_pad` return (they have no error case) a
full array of size N whose first M elements are the source elements in order
and whose remaining N-M elements all equal the default value, respectively a
clone of the caller-supplied pad value. -/
theorem padding_variants_total {T : Type u} (N : Nat) (it : List T) (d p : T)
    (h : it.length < N) :
    take_array_default N it d = (it ++ List.replicate (N - it.length) d, [])
    ∧ take_array_pad N it p = (it ++ List.replicate (N - it.length) p, [])
    ∧ (it ++ List.replicate (N - it.length) d).length = N := by
  refine ⟨takeFillLoop_of_lt d N it h, takeFillLoop_of_lt p N it h, ?_⟩
  simp only [List.length_append, List.length_replicate]
  omega

theorem padding_variants_total_witness :
    take_array_default 3 [(7 : Nat)] 0 = ([7, 0, 0], []) :=
  (padding_variants_total 3 [(7 : Nat)] 0 9 (by decide)).1

/-- Claim C7, amended: the chunk size must be positive (for N = 0 the chunk
sequence never ends, see the counterexample). For every N > 0, padding stream
and finite source, the chunks iterator eventually returns no further chunk:
some poll returns `none`. -/
theorem chunks_terminates {T : Type u} (N : Nat) (pad : Nat → T) (it : List T)
    (hN : 0 < N) :
    ∃ k, chunksEmit N pad (chunks it) k = none := by
  refine ⟨it.length, ?_⟩
  show (chunksNext N pad (chunksState N pad (chunks it) it.length)).1 = none
  apply chunksNext_none_of_nil N pad _ hN
  rw [chunksState_iter_drop]
  exact List.drop_eq_nil_of_le (Nat.le_mul_of_pos_right _ hN)

theorem chunks_terminates_witness :
    ∃ k, chunksEmit 2 (fun j => j) (chunks [(1 : Nat), 2, 3]) k = none :=
  chunks_terminates 2 (fun j => j) [(1 : Nat), 2, 3] (by decide)

/-- Claim C7 counterexample: with chunk size 0, even on the empty source every
poll of the chunks iterator yields a chunk — no poll ever returns `none`, so
the chunk sequence is not finite. -/
theorem chunks_nonterminating_cex :
    ¬ ∃ k, chunksEmit 0 (fun j => j) (chunks ([] : List Nat)) k = none := by
  rintro ⟨k, hk⟩
  rw [chunksEmit, show chunks ([] : List Nat) = (⟨[], 0⟩ : ChunksIter Nat) from rfl,
    chunksState_zero_nil _ 0 k] at hk
  exact absurd hk (by decide)

/-- Claim C8: `take_array` never consumes more than N elements from the
source: the iterator it leaves behind is exactly the source with its first
(at most N) elements removed, so when the source held L ≥ N elements the
elements N..L remain, unchanged and in order, for subsequent operations; and
the number of consumed elements is at most N. -/
theorem take_array_consumes_at_most_n {T : Type u} (N : Nat) (it : List T) :
    (take_array N it).2 = it.drop N
    ∧ it.length - ((take_array N it).2).length ≤ N := by
  have h2 : (take_array N it).2 = it.drop N := by
    rcases Nat.lt_or_ge it.length N with h | h
    · rw [take_array_of_lt N it h, List.drop_eq_nil_of_le (le_of_lt h)]
    · rw [take_array_of_le N it h]
  refine ⟨h2, ?_⟩
  rw [h2, List.length_drop]
  omega

/-- Claim C9: `take_array` never returns `TooLong`: its result is either a
success or a `TooShort` error. The padding-style take variants
(`take_array_default`, `take_array_pad`, `take_array_partial`) return plain
arrays respectively a `MaybePartial` value — their result types carry no
error at all — so `TooLong` can only come from the exact-length `to_array`
variants. -/
theorem take_array_never_too_long {T : Type u} (N : Nat) (it : List T) :
    (take_array N it).1 = Except.ok (it.take N)
    ∨ (take_array N it).1 = Except.error (ToArrayError.tooShort it.length N) := by
  rcases Nat.lt_or_ge it.length N with h | h
  · right
    rw [take_array_of_lt N it h]
  · left
    rw [take_array_of_le N it h]

/-- Claim C10: with N = 0, `take_array_partial` returns `Full` of the
zero-length array on every source — never `Empty` — consuming no element and
never invoking the padding function. -/
theorem take_array_part_size_zero {T : Type u} (it : List T) (pad : Nat → T) :
    take_array_part 0 it pad = (MaybePart.full [], it, 0) := rfl

end IterToArray
